import Mathlib

/-!
Verification of `async-byte-range-locks`: a byte-range lock manager for files.

The development shallowly embeds the repository's two components:

* `VectorMap` — the sorted-vector map of `src/vector_map.rs`;
* `file_byte_range_locks.Locks` — the lock table of `src/test.rs`, whose
  committed `set_lock`/`unset_lock` bodies are placeholder stubs
  (`Ok(true)` / `Ok(())`), embedded literally as `StubLocks`;
* a model of the acquire/release algorithm of the specification (§4.2/§4.3),
  since the real algorithm is absent from the committed sources.

Machine integers are modelled as `Nat` (`u64` offsets: the code performs no
arithmetic on them, only comparisons, so overflow cannot arise) and `Int`
(`i32` file descriptors: used only for equality).
-/

namespace vector_map

/-- An entry of the sorted-vector map (`VectorMapItem` in `src/vector_map.rs`). -/
structure VectorMapItem (K V : Type) where
  key : K
  value : V
deriving DecidableEq, Repr

/-- A map implemented as a sorted vector (`VectorMap` in `src/vector_map.rs`);
the backing `Vec` is embedded as a `List`. -/
structure VectorMap (K V : Type) where
  root : List (VectorMapItem K V)
deriving DecidableEq, Repr

namespace VectorMap

variable {K V : Type} [LinearOrder K]

/-- `VectorMap::new`: the empty map. -/
def new : VectorMap K V := ⟨[]⟩

/-- `VectorMap::len`. -/
def len (m : VectorMap K V) : Nat := m.root.length

/-- `VectorMap::is_empty`. -/
def is_empty (m : VectorMap K V) : Bool := m.root.isEmpty

/-- `VectorMap::clear`. -/
def clear (m : VectorMap K V) : VectorMap K V := ⟨[]⟩

/-- The index of the first entry whose key is not below `key` — on a vector
with strictly sorted keys this is exactly the index computed by Rust's
`slice::binary_search_by` (the `Ok` index on an exact match, the `Err`
insertion point otherwise), which `VectorMap::binary_search` calls. -/
def lowerBound (key : K) : List (VectorMapItem K V) → Nat
  | [] => 0
  | x :: xs => if x.key < key then lowerBound key xs + 1 else 0

/-- `VectorMap::binary_search`: nearest-key search, `Except.ok` on an exact
match and `Except.error` with the insertion point otherwise (Rust's
`Result<usize, usize>`). -/
def binary_search (m : VectorMap K V) (key : K) : Except Nat Nat :=
  let i := lowerBound key m.root
  match m.root.get? i with
  | some it => if it.key = key then .ok i else .error i
  | none => .error i

/-- `VectorMap::get`: a reference to an exact match (`.ok`) or nearest match
(`.error`) for the key.  The Rust body indexes `self.root[index]` in both
branches; an out-of-range index panics, which the embedding renders as
`none`. -/
def get (m : VectorMap K V) (key : K) : Option (Except (VectorMapItem K V) (VectorMapItem K V)) :=
  match m.binary_search key with
  | .error index => (m.root.get? index).map .error
  | .ok index => (m.root.get? index).map .ok

/-- `VectorMap::insert`: inserts at the computed position, returning any exact
match formerly there.  The `Ok` branch swaps the new value into the existing
entry (keeping its key) and returns the old value; the `Err` branch inserts a
fresh entry at the insertion point. -/
def insert (m : VectorMap K V) (key : K) (value : V) :
    Option V × VectorMap K V :=
  match m.binary_search key with
  | .error index => (none, ⟨m.root.insertIdx index ⟨key, value⟩⟩)
  | .ok index =>
    match m.root.get? index with
    | some it => (some it.value, ⟨m.root.set index ⟨it.key, value⟩⟩)
    | none => (none, m)  -- unreachable: an `ok` index is always in range

/-- The keys of the backing vector are in strictly ascending order — the
representation invariant of a map "implemented as a sorted vector". -/
def Sorted (m : VectorMap K V) : Prop :=
  m.root.Chain' (fun a b => a.key < b.key)

instance : IsTrans (VectorMapItem K V) (fun a b => a.key < b.key) :=
  ⟨fun _ _ _ h1 h2 => lt_trans h1 h2⟩

end VectorMap

end vector_map

namespace file_byte_range_locks

/-- A file descriptor (`i32`). -/
abbrev FileDescriptor := Int

/-- A start offset (inclusive) and end offset (exclusive), both `u64`. -/
abbrev ByteRange := Nat × Nat

/-- A variant holding the type of lock for a range (`Lock` in `src/test.rs`). -/
inductive Lock where
  /-- This range is share locked by one or more fds. -/
  | Shared (fds : List FileDescriptor)
  /-- This range is exclusively locked by just this fd. -/
  | Exclusive (fd : FileDescriptor)
deriving DecidableEq, Repr

/-- Possible unlock errors (`UnsetLockError` in `src/test.rs`). -/
inductive UnsetLockError where
  | NotFound
deriving DecidableEq, Repr

/-- The range locks associated with some file, as committed in `src/test.rs`:
the `BTreeMap<ByteRange, Lock>` is embedded as a sorted association list. -/
structure StubLocks where
  name : String
  locked_regions : List (ByteRange × Lock)
deriving DecidableEq, Repr

namespace StubLocks

/-- `Locks::new`: an empty lock table for the named file. -/
def new (name : String) : StubLocks := ⟨name, []⟩

/-- `Locks::set_lock` exactly as committed in `src/test.rs`: the body is the
placeholder `Ok(true)`, reading and writing no state. -/
def set_lock (l : StubLocks) (fd : FileDescriptor) (range : ByteRange)
    (exclusive : Bool) : StubLocks × Except Unit Bool :=
  (l, .ok true)

/-- `Locks::unset_lock` exactly as committed in `src/test.rs`: the body is the
placeholder `Ok(())`, reading and writing no state. -/
def unset_lock (l : StubLocks) (fd : FileDescriptor) (range : ByteRange) :
    StubLocks × Except UnsetLockError Unit :=
  (l, .ok ())

/-- One call against the stub lock table. -/
inductive Call where
  | set (fd : FileDescriptor) (range : ByteRange) (exclusive : Bool)
  | unset (fd : FileDescriptor) (range : ByteRange)

/-- Apply one call to the state, discarding the returned value. -/
def applyCall (l : StubLocks) : Call → StubLocks
  | .set fd range exclusive => (l.set_lock fd range exclusive).1
  | .unset fd range => (l.unset_lock fd range).1

/-- Apply a finite sequence of calls, left to right. -/
def applyCalls (l : StubLocks) (calls : List Call) : StubLocks :=
  calls.foldl applyCall l

end StubLocks

end file_byte_range_locks

namespace LockTable

/-- Modelled from the spec: a byte range, start inclusive and end exclusive
(`u64` offsets, compared but never added, hence `Nat`). -/
abbrev ByteRange := Nat × Nat

/-- Modelled from the spec: an opaque holder identity (a signed 32-bit id,
used only for equality). -/
abbrev Holder := Int

/-- Modelled from the spec: the tagged lock record over an interval —
`Shared(set of Holder)` or `Exclusive(Holder)`. -/
inductive Lock where
  | Shared (holders : List Holder)
  | Exclusive (holder : Holder)
deriving DecidableEq, Repr

/-- Modelled from the spec: the error taxonomy — `InvalidRange` for a
malformed interval, `NotFound` for a release covering none of the holder's
locks. -/
inductive LockError where
  | InvalidRange
  | NotFound
deriving DecidableEq, Repr

/-- Modelled from the spec: the per-file lock table, an ordered map from
byte ranges to lock records, embedded as a sorted association list. -/
structure LocksForFile where
  name : String
  regions : List (ByteRange × Lock)
deriving DecidableEq, Repr

/-- A stored range intersects a query range:
`stored.start < query.end && stored.end > query.start`. -/
def overlaps (stored query : ByteRange) : Prop :=
  stored.1 < query.2 ∧ stored.2 > query.1

instance (stored query : ByteRange) : Decidable (overlaps stored query) :=
  instDecidableAnd

/-- Modelled from the spec: `overlapping(query)` — every stored entry whose
interval intersects the query interval, in ascending order. -/
def overlapping (regions : List (ByteRange × Lock)) (query : ByteRange) :
    List (ByteRange × Lock) :=
  regions.filter (fun en => decide (overlaps en.1 query))

/-- A lock record is attributable, in whole or part, to the holder. -/
def attributable (h : Holder) : Lock → Prop
  | .Exclusive h' => h' = h
  | .Shared hs => h ∈ hs

instance (h : Holder) (lk : Lock) : Decidable (attributable h lk) := by
  cases lk <;> simp only [attributable] <;> infer_instance

/-- Modelled from the spec: the conflict rule of §4.2 step 3.  For an
exclusive request, any overlapping record owned in whole or part by a
different holder conflicts; for a shared request only a different holder's
exclusive record conflicts. -/
def conflictsWith (h : Holder) (exclusive : Bool) : Lock → Prop
  | .Exclusive h' => h' ≠ h
  | .Shared hs => if exclusive then ∃ x ∈ hs, x ≠ h else False

instance (h : Holder) (exclusive : Bool) (lk : Lock) :
    Decidable (conflictsWith h exclusive lk) := by
  cases lk <;> simp only [conflictsWith] <;> infer_instance

/-- Modelled from the spec: §4.2 step 4 — every overlapping entry wholly or
partially attributable to the requesting holder is removed; the portion of a
`Shared` set belonging to other holders is preserved by re-inserting the
interval with the holder dropped from the set. -/
def removeHolder (h : Holder) (r : ByteRange) :
    List (ByteRange × Lock) → List (ByteRange × Lock)
  | [] => []
  | en :: rest =>
    (if overlaps en.1 r then
      match en.2 with
      | .Exclusive h' => if h' = h then [] else [en]
      | .Shared hs =>
        if h ∈ hs then
          let remaining := hs.filter (fun x => decide (x ≠ h))
          if remaining = [] then [] else [(en.1, .Shared remaining)]
        else [en]
    else [en]) ++ removeHolder h r rest

/-- Range ordering of the interval map: by start, ties broken by end. -/
def rangeLt (a b : ByteRange) : Prop :=
  a.1 < b.1 ∨ (a.1 = b.1 ∧ a.2 < b.2)

instance (a b : ByteRange) : Decidable (rangeLt a b) := instDecidableOr

/-- Modelled from the spec: the interval map's `insert` — replaces an
exact-key entry, otherwise creates a new entry at the sorted insertion
point. -/
def mapInsert (key : ByteRange) (value : Lock) :
    List (ByteRange × Lock) → List (ByteRange × Lock)
  | [] => [(key, value)]
  | en :: rest =>
    if en.1 = key then (key, value) :: rest
    else if rangeLt key en.1 then (key, value) :: en :: rest
    else en :: mapInsert key value rest

/-- Modelled from the spec: §4.2 step 6, preceding side — if the entry just
before the entry keyed `r` ends where `r` starts and carries an identical
record, merge the two (extend downward); returns the new list and the
(possibly extended) range of the entry. -/
def mergePreceding (r : ByteRange) :
    List (ByteRange × Lock) → List (ByteRange × Lock) × ByteRange
  | x :: y :: rest =>
    if y.1 = r then
      if x.1.2 = r.1 ∧ x.2 = y.2 then
        (((x.1.1, r.2), y.2) :: rest, (x.1.1, r.2))
      else (x :: y :: rest, r)
    else
      let res := mergePreceding r (y :: rest)
      (x :: res.1, res.2)
  | l => (l, r)

/-- Modelled from the spec: §4.2 step 6, following side — if the entry just
after the entry keyed `r` starts where `r` ends and carries an identical
record, merge the two (extend upward). -/
def mergeFollowing (r : ByteRange) :
    List (ByteRange × Lock) → List (ByteRange × Lock)
  | x :: y :: rest =>
    if x.1 = r then
      if x.1.2 = y.1.1 ∧ x.2 = y.2 then ((x.1.1, y.1.2), x.2) :: rest
      else x :: y :: rest
    else x :: mergeFollowing r (y :: rest)
  | l => l

/-- Modelled from the spec: §4.2 — `acquire(holder, range, exclusive)`.
Rejects a malformed range; returns `(state, false)` untouched on any
conflict; otherwise removes the holder's superseded coverage, inserts the
new record and coalesces identical adjacent neighbours. -/
def acquire (st : LocksForFile) (h : Holder) (r : ByteRange)
    (exclusive : Bool) : Except LockError (LocksForFile × Bool) :=
  if r.2 ≤ r.1 then .error .InvalidRange
  else if (overlapping st.regions r).any
      (fun en => decide (conflictsWith h exclusive en.2)) then
    .ok (st, false)
  else
    let record := if exclusive then Lock.Exclusive h else Lock.Shared [h]
    let cleaned := removeHolder h r st.regions
    let inserted := mapInsert r record cleaned
    let pre := mergePreceding r inserted
    .ok (⟨st.name, mergeFollowing pre.2 pre.1⟩, true)

/-- Modelled from the spec: §4.3 step 3 applied to one entry — the part of a
holder's entry lying outside the release range survives (possibly as two
fragments for a middle cut); a shared set merely loses the holder on the
covered fragment, the entry disappearing only when the set empties. -/
def releaseEntry (h : Holder) (r : ByteRange) (en : ByteRange × Lock) :
    List (ByteRange × Lock) :=
  if overlaps en.1 r then
    match en.2 with
    | .Exclusive h' =>
      if h' = h then
        (if en.1.1 < r.1 then [((en.1.1, r.1), Lock.Exclusive h')] else []) ++
        (if r.2 < en.1.2 then [((r.2, en.1.2), Lock.Exclusive h')] else [])
      else [en]
    | .Shared hs =>
      if h ∈ hs then
        let remaining := hs.filter (fun x => decide (x ≠ h))
        (if en.1.1 < r.1 then [((en.1.1, r.1), Lock.Shared hs)] else []) ++
        (if remaining = [] then []
         else [((max en.1.1 r.1, min en.1.2 r.2), Lock.Shared remaining)]) ++
        (if r.2 < en.1.2 then [((r.2, en.1.2), Lock.Shared hs)] else [])
      else [en]
  else [en]

/-- Modelled from the spec: §4.3 — `release(holder, range)`.  Rejects a
malformed range; fails with `NotFound` when no overlapping entry is
attributable to the holder; otherwise removes the holder's coverage inside
the range, splitting entries that straddle its ends. -/
def release (st : LocksForFile) (h : Holder) (r : ByteRange) :
    Except LockError LocksForFile :=
  if r.2 ≤ r.1 then .error .InvalidRange
  else if (overlapping st.regions r).any
      (fun en => decide (attributable h en.2)) then
    .ok ⟨st.name, st.regions.flatMap (releaseEntry h r)⟩
  else .error .NotFound

/-- The holder owns part of the range: some stored entry overlapping the
range is attributable, in whole or part, to the holder. -/
def ownsPart (st : LocksForFile) (h : Holder) (r : ByteRange) : Prop :=
  ∃ en ∈ st.regions, overlaps en.1 r ∧ attributable h en.2

/-- Intermediate states of the golden scenario, named for readability. -/
def goldenState1 : LocksForFile := ⟨"foo", [((0, 2), .Exclusive 1)]⟩

/-- State after holder 2 takes `[2,3)` in the golden scenario. -/
def goldenState4 : LocksForFile :=
  ⟨"foo", [((0, 2), .Exclusive 1), ((2, 3), .Exclusive 2)]⟩

/-- State after holder 1 narrows to `[0,1)` in the golden scenario. -/
def goldenState5 : LocksForFile :=
  ⟨"foo", [((0, 1), .Exclusive 1), ((2, 3), .Exclusive 2)]⟩

/-- State after holder 2 extends to `[1,3)` in the golden scenario. -/
def goldenState7 : LocksForFile :=
  ⟨"foo", [((0, 1), .Exclusive 1), ((1, 3), .Exclusive 2)]⟩

/-- State after holder 1 releases everything in the golden scenario. -/
def goldenState9 : LocksForFile := ⟨"foo", [((1, 3), .Exclusive 2)]⟩

/-- State after holder 2 also releases everything. -/
def goldenState10 : LocksForFile := ⟨"foo", []⟩

end LockTable

/-- C1: starting from an empty lock table, the golden scenario holds step by
step — `acquire(1,[0,2),true)` is granted; `acquire(2,[0,1),true)` and
`acquire(2,[1,2),true)` are denied; `acquire(2,[2,3),true)` is granted;
`acquire(1,[0,1),true)` is granted (narrowing holder 1); `acquire(2,[0,2),true)`
is denied; `acquire(2,[1,2),true)` is granted (merging to `[1,3)`);
`release(1,[1,2))` fails with `NotFound`; `release(1,[0,9999))` and
`release(2,[0,9999))` succeed; and both repeated releases fail with
`NotFound`. -/
theorem LockTable.claim_golden_scenario :
    acquire ⟨"foo", []⟩ 1 (0, 2) true = .ok (goldenState1, true) ∧
    acquire goldenState1 2 (0, 1) true = .ok (goldenState1, false) ∧
    acquire goldenState1 2 (1, 2) true = .ok (goldenState1, false) ∧
    acquire goldenState1 2 (2, 3) true = .ok (goldenState4, true) ∧
    acquire goldenState4 1 (0, 1) true = .ok (goldenState5, true) ∧
    acquire goldenState5 2 (0, 2) true = .ok (goldenState5, false) ∧
    acquire goldenState5 2 (1, 2) true = .ok (goldenState7, true) ∧
    release goldenState7 1 (1, 2) = .error .NotFound ∧
    release goldenState7 1 (0, 9999) = .ok goldenState9 ∧
    release goldenState9 2 (0, 9999) = .ok goldenState10 ∧
    release goldenState10 1 (0, 9999) = .error .NotFound ∧
    release goldenState10 2 (0, 9999) = .error .NotFound :=
  ⟨rfl, rfl, rfl, rfl, rfl, rfl, rfl, rfl, rfl, rfl, rfl, rfl⟩

/-- C10: starting from `Locks::new` and applying any finite sequence of
`set_lock`/`unset_lock` calls with any arguments, `locked_regions` stays
empty after every call (indeed the whole state never changes): the committed
bodies are stubs that touch no state. -/
theorem file_byte_range_locks.StubLocks.claim_stub_state_constant
    (name : String) (calls : List Call) :
    (applyCalls (new name) calls).locked_regions = [] := by
  suffices h : ∀ l : StubLocks, applyCalls l calls = l by
    simp [h, new]
  intro l
  induction calls generalizing l with
  | nil => rfl
  | cons c rest ih =>
    have hstep : applyCall l c = l := by
      cases c <;> rfl
    simp [applyCalls] at ih ⊢
    simp [hstep, ih]

/-- C10 witness: the concrete golden-scenario call sequence leaves the stub
table's map empty. -/
theorem file_byte_range_locks.StubLocks.claim_stub_state_constant_witness :
    (applyCalls (new "foo")
      [.set 1 (0, 2) true, .set 2 (0, 1) true, .unset 1 (0, 9999)]
      ).locked_regions = [] :=
  claim_stub_state_constant "foo" [.set 1 (0, 2) true, .set 2 (0, 1) true,
    .unset 1 (0, 9999)]

/-- C3: for every state, holder and mode, a malformed range (`end <= start`)
makes both `acquire` and `release` fail with `InvalidRange`; the rejection
happens before any state is consulted (the error carries no successor state,
so the map is untouched). -/
theorem LockTable.claim_invalid_range (st : LocksForFile) (h : Holder)
    (r : ByteRange) (exclusive : Bool) (hmal : r.2 ≤ r.1) :
    acquire st h r exclusive = .error .InvalidRange ∧
    release st h r = .error .InvalidRange := by
  constructor <;> simp [acquire, release, hmal]

/-- C3 witness: the empty-range request `[5,5)` is rejected by both calls. -/
theorem LockTable.claim_invalid_range_witness :
    (5 : Nat) ≤ 5 ∧
    (acquire ⟨"foo", []⟩ 1 (5, 5) true = .error .InvalidRange ∧
     release ⟨"foo", []⟩ 1 (5, 5) = .error .InvalidRange) :=
  ⟨le_refl 5, claim_invalid_range ⟨"foo", []⟩ 1 (5, 5) true (le_refl 5)⟩

/-- C6: whenever `acquire` returns `false` (denial), the returned state is
exactly the input state — denial is an atomic no-op on every field. -/
theorem LockTable.claim_denial_is_noop (st st' : LocksForFile) (h : Holder)
    (r : ByteRange) (exclusive : Bool)
    (hcall : acquire st h r exclusive = .ok (st', false)) :
    st' = st := by
  unfold acquire at hcall
  split at hcall
  · simp at hcall
  · split at hcall
    · simp at hcall
      exact hcall.symm
    · simp at hcall

/-- C6 witness: a denied request (holder 2 against holder 1's `[0,2)` lock)
leaves the state untouched. -/
theorem LockTable.claim_denial_is_noop_witness :
    acquire goldenState1 2 (0, 1) true = .ok (goldenState1, false) ∧
    goldenState1 = goldenState1 :=
  ⟨rfl, claim_denial_is_noop goldenState1 goldenState1 2 (0, 1) true rfl⟩

namespace LockTable

/-- Membership in `overlapping` restated through `ownsPart`: the release
guard's `any` test holds exactly when the holder owns part of the range. -/
theorem any_attributable_iff_ownsPart (st : LocksForFile) (h : Holder)
    (r : ByteRange) :
    ((overlapping st.regions r).any
      (fun en => decide (attributable h en.2)) = true) ↔ ownsPart st h r := by
  simp [overlapping, ownsPart, List.any_eq_true, List.mem_filter, and_assoc]

/-- After `releaseEntry h r`, no produced entry both overlaps `r` and is
attributable to `h`: surviving fragments lie outside the release range, and
the covered fragment of a shared set has lost `h` from its membership. -/
theorem releaseEntry_clears (h : Holder) (r : ByteRange)
    (en : ByteRange × Lock) :
    ∀ en' ∈ releaseEntry h r en,
      ¬ (overlaps en'.1 r ∧ attributable h en'.2) := by
  intro en' hmem
  obtain ⟨rng, lk⟩ := en
  by_cases hov : overlaps rng r
  · cases lk with
    | Exclusive h' =>
      rw [releaseEntry, if_pos hov] at hmem
      dsimp only at hmem
      by_cases hh : h' = h
      · rw [if_pos hh] at hmem
        rcases List.mem_append.mp hmem with hl | hr
        · by_cases hc : rng.1 < r.1
          · rw [if_pos hc] at hl
            simp only [List.mem_singleton] at hl
            subst hl
            rintro ⟨⟨-, hbad⟩, -⟩
            exact lt_irrefl _ hbad
          · rw [if_neg hc] at hl
            simp at hl
        · by_cases hc : r.2 < rng.2
          · rw [if_pos hc] at hr
            simp only [List.mem_singleton] at hr
            subst hr
            rintro ⟨⟨hbad, -⟩, -⟩
            exact lt_irrefl _ hbad
          · rw [if_neg hc] at hr
            simp at hr
      · rw [if_neg hh] at hmem
        simp only [List.mem_singleton] at hmem
        subst hmem
        rintro ⟨-, hattr⟩
        exact hh hattr
    | Shared hs =>
      rw [releaseEntry, if_pos hov] at hmem
      dsimp only at hmem
      by_cases hin : h ∈ hs
      · rw [if_pos hin] at hmem
        rcases List.mem_append.mp hmem with hlm | hr
        · rcases List.mem_append.mp hlm with hl | hm
          · by_cases hc : rng.1 < r.1
            · rw [if_pos hc] at hl
              simp only [List.mem_singleton] at hl
              subst hl
              rintro ⟨⟨-, hbad⟩, -⟩
              exact lt_irrefl _ hbad
            · rw [if_neg hc] at hl
              simp at hl
          · by_cases hc : hs.filter (fun x => decide (x ≠ h)) = []
            · rw [if_pos hc] at hm
              simp at hm
            · rw [if_neg hc] at hm
              simp only [List.mem_singleton] at hm
              subst hm
              rintro ⟨-, hattr⟩
              have hmf := List.mem_filter.mp hattr
              simp at hmf
        · by_cases hc : r.2 < rng.2
          · rw [if_pos hc] at hr
            simp only [List.mem_singleton] at hr
            subst hr
            rintro ⟨⟨hbad, -⟩, -⟩
            exact lt_irrefl _ hbad
          · rw [if_neg hc] at hr
            simp at hr
      · rw [if_neg hin] at hmem
        simp only [List.mem_singleton] at hmem
        subst hmem
        rintro ⟨-, hattr⟩
        exact hin hattr
  · rw [releaseEntry, if_neg hov] at hmem
    simp only [List.mem_singleton] at hmem
    subst hmem
    rintro ⟨hbad, -⟩
    exact hov hbad

end LockTable

/-- C2: if a stored entry gives holder `a` an exclusive lock on `r1`, `r1`
overlaps the requested `r2`, and `b ≠ a`, then `acquire(b, r2, true)` is
denied with the state unchanged, and a subsequent `release(a, r1)` of exactly
that range succeeds. -/
theorem LockTable.claim_exclusive_conflict_denied (st : LocksForFile)
    (a b : Holder) (r1 r2 : ByteRange) (hv1 : r1.1 < r1.2) (hv2 : r2.1 < r2.2)
    (hov : overlaps r1 r2) (hne : a ≠ b)
    (hmem : (r1, Lock.Exclusive a) ∈ st.regions) :
    acquire st b r2 true = .ok (st, false) ∧
    ∃ st', release st a r1 = .ok st' := by
  have hv2' : ¬ r2.2 ≤ r2.1 := by omega
  have hmem2 : (r1, Lock.Exclusive a) ∈ overlapping st.regions r2 := by
    simp [overlapping, List.mem_filter, hmem, hov]
  have hany : (overlapping st.regions r2).any
      (fun en => decide (conflictsWith b true en.2)) = true := by
    rw [List.any_eq_true]
    refine ⟨_, hmem2, ?_⟩
    simp [conflictsWith]
    exact hne
  constructor
  · simp [acquire, hv2', hany]
  · have hv1' : ¬ r1.2 ≤ r1.1 := by omega
    have hself : overlaps r1 r1 := ⟨hv1, hv1⟩
    have hmem1 : (r1, Lock.Exclusive a) ∈ overlapping st.regions r1 := by
      simp [overlapping, List.mem_filter, hmem, hself]
    have hany1 : (overlapping st.regions r1).any
        (fun en => decide (attributable a en.2)) = true := by
      rw [List.any_eq_true]
      exact ⟨_, hmem1, by simp [attributable]⟩
    refine ⟨⟨st.name, st.regions.flatMap (releaseEntry a r1)⟩, ?_⟩
    simp [release, hv1', hany1]

/-- C2 witness: holder 2 is denied `[0,1)` against holder 1's exclusive
`[0,2)`, and holder 1 can then release `[0,2)` exactly. -/
theorem LockTable.claim_exclusive_conflict_denied_witness :
    acquire goldenState1 2 (0, 1) true = .ok (goldenState1, false) ∧
    ∃ st', release goldenState1 1 (0, 2) = .ok st' :=
  claim_exclusive_conflict_denied goldenState1 1 2 (0, 2) (0, 1)
    (by decide) (by decide) (by decide) (by decide) (by simp [goldenState1])

/-- C4: for a valid range, `release(h, r)` fails with `NotFound` exactly when
`h` owns no part of `r` (in particular when nothing overlaps `r`, and on a
double release); when `h` owns part of `r` it succeeds, and repeating the
identical release then fails with `NotFound`. -/
theorem LockTable.claim_release_not_found (st : LocksForFile) (h : Holder)
    (r : ByteRange) (hv : r.1 < r.2) :
    (release st h r = .error .NotFound ↔ ¬ ownsPart st h r) ∧
    (ownsPart st h r →
      ∃ st', release st h r = .ok st' ∧ release st' h r = .error .NotFound) := by
  have hv' : ¬ r.2 ≤ r.1 := by omega
  have hsecond : ∀ st' : LocksForFile,
      st'.regions = st.regions.flatMap (releaseEntry h r) →
      release st' h r = .error .NotFound := by
    intro st' hreg
    have hnone : (overlapping st'.regions r).any
        (fun en => decide (attributable h en.2)) = false := by
      rw [List.any_eq_false]
      intro en' hmem'
      rw [overlapping, List.mem_filter] at hmem'
      obtain ⟨hmemf, hovd⟩ := hmem'
      rw [hreg, List.mem_flatMap] at hmemf
      obtain ⟨en, hen, hmem⟩ := hmemf
      have hclear := releaseEntry_clears h r en en' hmem
      simp only [decide_eq_true_eq] at hovd ⊢
      exact fun hattr => hclear ⟨hovd, hattr⟩
    simp [release, hv', hnone]
  constructor
  · by_cases hany : (overlapping st.regions r).any
        (fun en => decide (attributable h en.2)) = true
    · have howns := (any_attributable_iff_ownsPart st h r).mp hany
      simp [release, hv', hany, howns]
    · have howns : ¬ ownsPart st h r :=
        fun hb => hany ((any_attributable_iff_ownsPart st h r).mpr hb)
      rw [Bool.not_eq_true] at hany
      simp [release, hv', hany, howns]
  · intro howns
    have hany := (any_attributable_iff_ownsPart st h r).mpr howns
    refine ⟨⟨st.name, st.regions.flatMap (releaseEntry h r)⟩,
      by simp [release, hv', hany], hsecond _ rfl⟩

/-- C4 witness: on the table where holder 1 exclusively holds `[0,2)`,
`release(2, [0,2))` fails with `NotFound` (holder 2 owns nothing), while
`release(1, [0,2))` succeeds once and fails with `NotFound` the second
time. -/
theorem LockTable.claim_release_not_found_witness :
    (release goldenState1 2 (0, 2) = .error .NotFound ↔
      ¬ ownsPart goldenState1 2 (0, 2)) ∧
    (ownsPart goldenState1 1 (0, 2) →
      ∃ st', release goldenState1 1 (0, 2) = .ok st' ∧
        release st' 1 (0, 2) = .error .NotFound) :=
  ⟨(claim_release_not_found goldenState1 2 (0, 2) (by decide)).1,
   (claim_release_not_found goldenState1 1 (0, 2) (by decide)).2⟩

namespace LockTable

/-- An exclusive acquire of a valid range on an empty table is granted and
stores exactly the requested record. -/
theorem acquire_empty (name : String) (h : Holder) (r : ByteRange)
    (hv : r.1 < r.2) :
    acquire ⟨name, []⟩ h r true =
      .ok (⟨name, [(r, Lock.Exclusive h)]⟩, true) := by
  have hv' : ¬ r.2 ≤ r.1 := by omega
  simp [acquire, overlapping, removeHolder, mapInsert, mergePreceding,
    mergeFollowing, hv']

/-- Valid disjoint ranges are distinct keys. -/
theorem ne_of_disjoint (r1 r2 : ByteRange) (hv1 : r1.1 < r1.2)
    (hov : ¬ overlaps r1 r2) : r1 ≠ r2 := by
  intro he
  subst he
  exact hov ⟨hv1, hv1⟩

end LockTable

/-- C5: from an empty table, two exclusive acquires of valid non-overlapping
ranges by distinct holders are both granted. -/
theorem LockTable.claim_disjoint_both_granted (name : String) (a b : Holder)
    (r1 r2 : ByteRange) (hv1 : r1.1 < r1.2) (hv2 : r2.1 < r2.2)
    (hov : ¬ overlaps r1 r2) (hne : a ≠ b) :
    ∃ st1 st2, acquire ⟨name, []⟩ a r1 true = .ok (st1, true) ∧
      acquire st1 b r2 true = .ok (st2, true) := by
  have hv2' : ¬ r2.2 ≤ r2.1 := by omega
  have hne12 : r1 ≠ r2 := ne_of_disjoint r1 r2 hv1 hov
  by_cases hlt : rangeLt r2 r1
  · refine ⟨⟨name, [(r1, Lock.Exclusive a)]⟩,
      ⟨name, [(r2, Lock.Exclusive b), (r1, Lock.Exclusive a)]⟩,
      acquire_empty name a r1 hv1, ?_⟩
    simp [acquire, overlapping, hov, removeHolder, mapInsert, hne12,
      hne12.symm, hlt, mergePreceding, mergeFollowing, hne, hne.symm, hv2']
  · refine ⟨⟨name, [(r1, Lock.Exclusive a)]⟩,
      ⟨name, [(r1, Lock.Exclusive a), (r2, Lock.Exclusive b)]⟩,
      acquire_empty name a r1 hv1, ?_⟩
    simp [acquire, overlapping, hov, removeHolder, mapInsert, hne12,
      hne12.symm, hlt, mergePreceding, mergeFollowing, hne, hne.symm, hv2']

/-- C5 witness: holders 1 and 2 both obtain exclusive locks on the disjoint
ranges `[0,2)` and `[5,7)` from an empty table. -/
theorem LockTable.claim_disjoint_both_granted_witness :
    ∃ st1 st2,
      acquire ⟨"foo", []⟩ 1 (0, 2) true = .ok (st1, true) ∧
      acquire st1 2 (5, 7) true = .ok (st2, true) :=
  claim_disjoint_both_granted "foo" 1 2 (0, 2) (5, 7)
    (by decide) (by decide) (by decide) (by decide)

/-- C7: if holder `h` exclusively holds `[s,e)` and re-locks the sub-range
`[s,e')` with `s < e' < e`, the call is granted and `h`'s holding becomes
exactly `[s,e')`; the remainder `[e',e)` is then free — an exclusive acquire
of it by a different holder `h2` is granted. -/
theorem LockTable.claim_relock_narrows (name : String) (h h2 : Holder)
    (s e' e : Nat) (hse : s < e') (hee : e' < e) (hne : h ≠ h2) :
    acquire ⟨name, [((s, e), Lock.Exclusive h)]⟩ h (s, e') true =
      .ok (⟨name, [((s, e'), Lock.Exclusive h)]⟩, true) ∧
    acquire ⟨name, [((s, e'), Lock.Exclusive h)]⟩ h2 (e', e) true =
      .ok (⟨name, [((s, e'), Lock.Exclusive h),
        ((e', e), Lock.Exclusive h2)]⟩, true) := by
  have hse2 : ¬ e' ≤ s := by omega
  have hee2 : ¬ e ≤ e' := by omega
  have hov1 : overlaps (s, e) (s, e') := ⟨hse, by omega⟩
  have hov2 : ¬ overlaps (s, e') (e', e) := by
    rintro ⟨-, hbad⟩
    exact lt_irrefl _ hbad
  have hkey : ((s, e') : ByteRange) ≠ (e', e) := by
    intro hk
    rw [Prod.mk.injEq] at hk
    omega
  have hlt : ¬ rangeLt (e', e) (s, e') := by
    rintro (hbad | ⟨hbad, -⟩) <;> omega
  constructor
  · simp [acquire, overlapping, hov1, removeHolder, mapInsert,
      mergePreceding, mergeFollowing, conflictsWith, hse2]
  · simp [acquire, overlapping, hov2, removeHolder, mapInsert, hkey, hlt,
      mergePreceding, mergeFollowing, hne, hee2]

/-- C7 witness: holder 1 narrows `[0,4)` to `[0,2)`, after which holder 2
obtains `[2,4)`. -/
theorem LockTable.claim_relock_narrows_witness :
    acquire ⟨"foo", [((0, 4), Lock.Exclusive 1)]⟩ 1 (0, 2) true =
      .ok (⟨"foo", [((0, 2), Lock.Exclusive 1)]⟩, true) ∧
    acquire ⟨"foo", [((0, 2), Lock.Exclusive 1)]⟩ 2 (2, 4) true =
      .ok (⟨"foo", [((0, 2), Lock.Exclusive 1),
        ((2, 4), Lock.Exclusive 2)]⟩, true) :=
  claim_relock_narrows "foo" 1 2 0 2 4 (by decide) (by decide) (by decide)

namespace vector_map

namespace VectorMap

variable {K V : Type} [LinearOrder K]

/-- The insertion point never exceeds the vector's length. -/
theorem lowerBound_le_length (key : K) (l : List (VectorMapItem K V)) :
    lowerBound key l ≤ l.length := by
  induction l with
  | nil => simp [lowerBound]
  | cons x xs ih =>
    by_cases hx : x.key < key
    · simp only [lowerBound, if_pos hx, List.length_cons]
      omega
    · simp [lowerBound, hx]

/-- On a sorted vector containing the key, the entry at the insertion point
carries exactly that key. -/
theorem get_lowerBound_of_present (key : K)
    (l : List (VectorMapItem K V))
    (hs : l.Chain' (fun a b => a.key < b.key))
    (it : VectorMapItem K V) (hmem : it ∈ l) (hkey : it.key = key) :
    ∃ it', l.get? (lowerBound key l) = some it' ∧ it'.key = key := by
  induction l with
  | nil => cases hmem
  | cons x xs ih =>
    by_cases hx : x.key < key
    · rcases List.mem_cons.mp hmem with rfl | hmem'
      · exact absurd hx (by rw [hkey]; exact lt_irrefl key)
      · simp only [lowerBound, if_pos hx, List.get?_cons_succ]
        exact ih hs.tail hmem'
    · rcases List.mem_cons.mp hmem with rfl | hmem'
      · exact ⟨it, by simp [lowerBound, hx], hkey⟩
      · have hpw := List.chain'_iff_pairwise.mp hs
        have hlt := (List.pairwise_cons.mp hpw).1 it hmem'
        exact absurd (hkey ▸ hlt) hx

/-- `binary_search` unfolded once (its match on the nearest entry). -/
theorem binary_search_eq (m : VectorMap K V) (key : K) :
    m.binary_search key =
      match m.root.get? (lowerBound key m.root) with
      | some it =>
        if it.key = key then .ok (lowerBound key m.root)
        else .error (lowerBound key m.root)
      | none => .error (lowerBound key m.root) := rfl

/-- `insert` unfolded once (its match on the search result). -/
theorem insert_eq (m : VectorMap K V) (key : K) (value : V) :
    m.insert key value =
      match m.binary_search key with
      | .error index => (none, ⟨m.root.insertIdx index ⟨key, value⟩⟩)
      | .ok index =>
        match m.root.get? index with
        | some it => (some it.value, ⟨m.root.set index ⟨it.key, value⟩⟩)
        | none => (none, m) := rfl

/-- When no entry carries the key, `binary_search` reports a missing key with
the insertion point. -/
theorem binary_search_absent (m : VectorMap K V) (key : K)
    (habs : ∀ it ∈ m.root, it.key ≠ key) :
    m.binary_search key = .error (lowerBound key m.root) := by
  rw [binary_search_eq]
  cases hg : m.root.get? (lowerBound key m.root) with
  | none => rfl
  | some it =>
    dsimp only
    rw [if_neg (habs it (List.get?_mem hg))]

/-- Inserting a fresh key at its insertion point keeps the keys strictly
sorted. -/
theorem sorted_insertIdx_lowerBound (key : K) (v : V) :
    ∀ l : List (VectorMapItem K V),
      l.Chain' (fun a b => a.key < b.key) →
      (∀ it ∈ l, it.key ≠ key) →
      (List.insertIdx (lowerBound key l) ⟨key, v⟩ l).Chain'
        (fun a b => a.key < b.key) := by
  intro l
  induction l with
  | nil =>
    intro _ _
    simp [lowerBound, List.insertIdx_zero]
  | cons x xs ih =>
    intro hc habs
    by_cases hx : x.key < key
    · simp only [lowerBound, if_pos hx, List.insertIdx_succ_cons]
      rw [List.chain'_cons']
      refine ⟨?_, ih hc.tail (fun it hit => habs it (List.mem_cons_of_mem x hit))⟩
      intro y hy
      cases xs with
      | nil =>
        simp [lowerBound, List.insertIdx_zero] at hy
        rw [← hy]
        exact hx
      | cons z zs =>
        by_cases hz : z.key < key
        · simp only [lowerBound, if_pos hz, List.insertIdx_succ_cons,
            List.head?_cons, Option.mem_def, Option.some.injEq] at hy
          rw [← hy]
          exact (List.chain'_cons'.mp hc).1 z rfl
        · simp only [lowerBound, if_neg hz, List.insertIdx_zero,
            List.head?_cons, Option.mem_def, Option.some.injEq] at hy
          rw [← hy]
          exact hx
    · simp only [lowerBound, if_neg hx, List.insertIdx_zero]
      rw [List.chain'_cons']
      refine ⟨?_, hc⟩
      intro y hy
      simp only [List.head?_cons, Option.mem_def, Option.some.injEq] at hy
      rw [← hy]
      exact lt_of_le_of_ne (not_lt.mp hx)
        (fun he => habs x (List.mem_cons_self x xs) he.symm)

/-- Overwriting the value at an index, keeping the stored key, leaves the key
sequence untouched. -/
theorem map_key_set (l : List (VectorMapItem K V)) (i : Nat)
    (it : VectorMapItem K V) (v : V) (hg : l.get? i = some it) :
    (l.set i ⟨it.key, v⟩).map (fun x => x.key) = l.map (fun x => x.key) := by
  induction l generalizing i with
  | nil => simp at hg
  | cons x xs ih =>
    cases i with
    | zero =>
      simp only [List.get?] at hg
      cases hg
      simp
    | succ n =>
      rw [List.set_cons_succ]
      simp only [List.map_cons]
      rw [ih n (by simpa using hg)]

end VectorMap

end vector_map

/-- C8: on a sorted map, `insert(key, value)` returns the old value and
replaces it in place when an entry with exactly that key exists (length
unchanged), and otherwise returns `none` and creates the entry at the sorted
insertion point (length grows by one); in both cases the keys remain in
sorted order and the new entry is present afterwards. -/
theorem vector_map.VectorMap.claim_insert_spec {K V : Type} [LinearOrder K]
    (m : VectorMap K V) (key : K) (value : V) (hs : m.Sorted) :
    ((∃ it ∈ m.root, it.key = key) →
      (∃ it ∈ m.root, it.key = key ∧ (m.insert key value).1 = some it.value) ∧
      (m.insert key value).2.len = m.len ∧
      (m.insert key value).2.Sorted ∧
      (⟨key, value⟩ : VectorMapItem K V) ∈ (m.insert key value).2.root) ∧
    ((∀ it ∈ m.root, it.key ≠ key) →
      (m.insert key value).1 = none ∧
      (m.insert key value).2.len = m.len + 1 ∧
      (m.insert key value).2.Sorted ∧
      (⟨key, value⟩ : VectorMapItem K V) ∈ (m.insert key value).2.root) := by
  constructor
  · rintro ⟨it, hmem, hkey⟩
    obtain ⟨it', hget, hkey'⟩ :=
      get_lowerBound_of_present key m.root hs it hmem hkey
    have hbs : m.binary_search key = .ok (lowerBound key m.root) := by
      rw [binary_search_eq, hget]
      dsimp only
      rw [if_pos hkey']
    have hins : m.insert key value =
        (some it'.value,
         ⟨m.root.set (lowerBound key m.root) ⟨it'.key, value⟩⟩) := by
      rw [insert_eq, hbs]
      dsimp only
      rw [hget]
    obtain ⟨hlt, -⟩ := List.get?_eq_some.mp hget
    refine ⟨⟨it', List.get?_mem hget, hkey', by rw [hins]⟩, ?_, ?_, ?_⟩
    · rw [hins]
      simp [len, List.length_set]
    · rw [hins]
      unfold Sorted at hs ⊢
      rw [← List.chain'_map (fun x : VectorMapItem K V => x.key)] at hs ⊢
      rwa [map_key_set m.root (lowerBound key m.root) it' value hget]
    · rw [hins]
      dsimp only
      rw [hkey']
      exact List.get?_mem (List.get?_set_eq_of_lt _ hlt)
  · intro habs
    have hbs := binary_search_absent m key habs
    have hins : m.insert key value =
        (none, ⟨m.root.insertIdx (lowerBound key m.root) ⟨key, value⟩⟩) := by
      rw [insert_eq, hbs]
    refine ⟨by rw [hins], ?_, ?_, ?_⟩
    · rw [hins]
      simp [len,
        List.length_insertIdx _ _ (lowerBound_le_length key m.root)]
    · rw [hins]
      exact sorted_insertIdx_lowerBound key value m.root hs habs
    · rw [hins]
      exact (List.mem_insertIdx (lowerBound_le_length key m.root)).mpr
        (Or.inl rfl)

/-- C8 witness: the theorem applied to the sorted two-entry map
`{0 ↦ 10, 5 ↦ 11}` at key 5 and value 99, with the exact-match branch
discharged concretely. -/
theorem vector_map.VectorMap.claim_insert_spec_witness :
    (⟨[⟨0, 10⟩, ⟨5, 11⟩]⟩ : VectorMap Nat Nat).Sorted ∧
    ((∃ it ∈ [(⟨0, 10⟩ : VectorMapItem Nat Nat), ⟨5, 11⟩], it.key = 5 ∧
        ((⟨[⟨0, 10⟩, ⟨5, 11⟩]⟩ : VectorMap Nat Nat).insert 5 99).1 =
          some it.value) ∧
      ((⟨[⟨0, 10⟩, ⟨5, 11⟩]⟩ : VectorMap Nat Nat).insert 5 99).2.len =
        (⟨[⟨0, 10⟩, ⟨5, 11⟩]⟩ : VectorMap Nat Nat).len ∧
      ((⟨[⟨0, 10⟩, ⟨5, 11⟩]⟩ : VectorMap Nat Nat).insert 5 99).2.Sorted ∧
      (⟨5, 99⟩ : VectorMapItem Nat Nat) ∈
        ((⟨[⟨0, 10⟩, ⟨5, 11⟩]⟩ : VectorMap Nat Nat).insert 5 99).2.root) :=
  ⟨List.chain'_pair.mpr (by decide),
   (claim_insert_spec (⟨[⟨0, 10⟩, ⟨5, 11⟩]⟩ : VectorMap Nat Nat) 5 99
      (List.chain'_pair.mpr (by decide))).1
    ⟨⟨5, 11⟩, by decide, rfl⟩⟩

namespace vector_map

namespace VectorMap

variable {K V : Type} [LinearOrder K]

/-- `get` unfolded once (its match on the search result). -/
theorem get_eq (m : VectorMap K V) (key : K) :
    m.get key =
      match m.binary_search key with
      | .error index => (m.root.get? index).map .error
      | .ok index => (m.root.get? index).map .ok := rfl

end VectorMap

end vector_map

/-- C9 counterexample: on the singleton map `{0 ↦ 7}`, searching key 5 (a key
greater than every stored key) makes `binary_search` report the insertion
point `len`, and `get`'s nearest-match branch then indexes `root[len]`, past
the end of the backing vector — the out-of-range access the claim denies,
rendered as `none` in the embedding. -/
theorem vector_map.VectorMap.claim_get_no_out_of_range_counterexample :
    (⟨[⟨0, 7⟩]⟩ : VectorMap Nat Nat).get 5 = none ∧
    (⟨[⟨0, 7⟩]⟩ : VectorMap Nat Nat).binary_search 5 =
      .error (⟨[⟨0, 7⟩]⟩ : VectorMap Nat Nat).len :=
  ⟨rfl, rfl⟩

/-- C9 amended: `VectorMap::get` stays in range — returning a well-defined
exact or nearest match — except exactly when the key is absent and its
insertion point equals the map's length (the key is greater than every
stored key, or the map is empty); in that case the nearest-match branch
indexes `root[len]`, out of range (a panic, modelled as `none`). -/
theorem vector_map.VectorMap.claim_get_out_of_range_iff {K V : Type}
    [LinearOrder K] (m : VectorMap K V) (key : K) :
    m.get key = none ↔ m.binary_search key = .error m.root.length := by
  rw [get_eq, binary_search_eq]
  cases hg : m.root.get? (lowerBound key m.root) with
  | none =>
    dsimp only
    rw [hg]
    have h1 := List.get?_eq_none.mp hg
    have h2 := lowerBound_le_length key m.root
    simp only [Option.map_none', Except.error.injEq, true_iff]
    omega
  | some it =>
    by_cases hk : it.key = key
    · dsimp only
      rw [if_pos hk]
      dsimp only
      rw [hg]
      simp
    · dsimp only
      rw [if_neg hk]
      dsimp only
      rw [hg]
      obtain ⟨hlt, -⟩ := List.get?_eq_some.mp hg
      simp only [Option.map_some', Except.error.injEq]
      constructor
      · intro hbad
        cases hbad
      · intro he
        omega
